import Mathlib

/-!
Verification of the `yo` parallel file-copy engine (`src/yo.cpp`).

The development shallowly embeds the core of `yo::context::copy_file` and its
helpers (`open_file`, `stat_file`, `copy_chunk`, `extract_filename`,
`open_file_or_in_subdir`, the range-partition loop and the future-join loop)
as executable Lean definitions, and proves the specification claims about
them.  Files are modelled as a size together with a total byte function;
machine `size_t`/`off_t` arithmetic is modelled by `Nat` (no overflow occurs
for the file sizes the claims quantify over).
-/

namespace Yo

/-- POSIX errno values used by the source (Linux numbering). -/
def EINTR : Nat := 4
def EAGAIN : Nat := 11
def EISDIR : Nat := 21
def EACCES : Nat := 13

/-- POSIX open(2) flag values used by the source (Linux numbering). -/
def O_RDONLY : Nat := 0
def O_WRONLY : Nat := 1
def O_CREAT : Nat := 64
def O_CLOEXEC : Nat := 524288

/-- `options`: the immutable configuration snapshot (`yo::options`).
`_threads` is `get_concurrency()`, `_block_size` is `get_block_size()`. -/
structure options where
  threads : Nat
  block_size : Nat
deriving Repr, DecidableEq

/-- A `File Range`: contiguous byte span `[offset, offset + length)`. -/
structure FileRange where
  offset : Nat
  length : Nat
deriving Repr, DecidableEq

/-- Membership of a byte position in a range. -/
def FileRange.mem (r : FileRange) (p : Nat) : Prop :=
  r.offset ≤ p ∧ p < r.offset + r.length

instance (r : FileRange) (p : Nat) : Decidable (r.mem p) := by
  unfold FileRange.mem; infer_instance

/-- The partition loop of `context::copy_file` (yo.cpp lines 223–233):
`worker_block = size_file / n_workers`; worker `i` starts at
`i * worker_block`; every worker but the last gets
`((i+1) * worker_block) - worker_offset` bytes and the last gets
`size_file - worker_offset`. -/
def partition (total_size n_workers : Nat) : List FileRange :=
  let worker_block := total_size / n_workers
  (List.range n_workers).map fun i =>
    let worker_offset := i * worker_block
    let read_size :=
      if i + 1 = n_workers then total_size - worker_offset
      else (i + 1) * worker_block - worker_offset
    ⟨worker_offset, read_size⟩

/-- A file: logical size and byte content (content at positions `≥ size` is
kept by the model but is unobservable through the POSIX interface). -/
structure File where
  size : Nat
  data : Nat → Nat

/-- `ftruncate(fd, n)`: sets the logical size to `n`; bytes gained by an
extension read as zero. -/
def ftruncateF (f : File) (n : Nat) : File :=
  ⟨n, fun p => if f.size ≤ p ∧ p < n then 0 else f.data p⟩

/-- `pwrite(fd, buf, len, offset)` on the success path: writes `buf 0 …
buf (len-1)` at `offset`, extending the size when the write ends past it. -/
def pwriteF (f : File) (buf : Nat → Nat) (offset len : Nat) : File :=
  ⟨max f.size (offset + len),
   fun p => if offset ≤ p ∧ p < offset + len then buf (p - offset) else f.data p⟩

/-- The `copy_chunk` loop (yo.cpp lines 145–178) on the all-success path:
while `size > 0`, read `r_size = min size chunk_size` bytes of `src` at
`offset` into the buffer, write them to `dst` at the same `offset`, then
advance `offset` and decrease `size` by `r_size`.  (With `chunk_size = 0`
and `size > 0` the C++ loop never terminates; the model returns `dst`
there, and every theorem below assumes `block_size ≥ 1`.) -/
def copy_chunk (opts : options) (dst src : File) (offset size : Nat) : File :=
  if h : size = 0 ∨ opts.block_size = 0 then dst
  else
    let r_size := min size opts.block_size
    copy_chunk opts
      (pwriteF dst (fun j => src.data (offset + j)) offset r_size)
      src (offset + r_size) (size - r_size)
termination_by size
decreasing_by
  push_neg at h
  have h1 : 1 ≤ min size opts.block_size :=
    le_min (Nat.one_le_iff_ne_zero.mpr h.1) (Nat.one_le_iff_ne_zero.mpr h.2)
  omega

/-- `context::copy_file` data effect (yo.cpp lines 200–247) on the
all-success path: truncate the destination to the source size, then run one
`copy_chunk` per partitioned range.  The worker tasks write pairwise
disjoint ranges, so the concurrent execution is modelled by the fold in
dispatch order. -/
def copy_file (opts : options) (src dst : File) : File :=
  let size_file := src.size
  let dst1 := ftruncateF dst size_file
  (partition size_file opts.threads).foldl
    (fun d r => copy_chunk opts d src r.offset r.length) dst1

/-- The `(offset, r_size)` advance steps taken by the `copy_chunk` loop:
each step advances by `r_size = min size chunk_size`. -/
def canonical_steps (opts : options) (offset size : Nat) : List (Nat × Nat) :=
  if h : size = 0 ∨ opts.block_size = 0 then []
  else
    let r_size := min size opts.block_size
    (offset, r_size) :: canonical_steps opts (offset + r_size) (size - r_size)
termination_by size
decreasing_by
  push_neg at h
  have h1 : 1 ≤ min size opts.block_size :=
    le_min (Nat.one_le_iff_ne_zero.mpr h.1) (Nat.one_le_iff_ne_zero.mpr h.2)
  omega

/-! ### Path resolution (`extract_filename`, `open_file_or_in_subdir`) -/

/-- `std::string::rfind('/')`: index of the last `'/'` in the string, if
any.  Strings are modelled as `List Char`. -/
def rfind_slash : List Char → Option Nat
  | [] => none
  | c :: rest =>
    match rfind_slash rest with
    | some p => some (p + 1)
    | none => if c = '/' then some 0 else none

/-- `yo::extract_filename` (yo.cpp lines 181–187): `pos = src.rfind('/')`;
when found (the guard `pos < src.size()` always holds then) the result is
`src.substr(pos)` — the suffix of `src` starting AT the last `'/'`, slash
included; otherwise `src` itself. -/
def extract_filename (src : List Char) : List Char :=
  match rfind_slash src with
  | some pos => src.drop pos
  | none => src

/-- The fallback path built by `open_file_or_in_subdir` (yo.cpp line 197):
`fmt::scat(dst + '/' + filename)`, i.e. `dst ++ "/" ++ filename`. -/
def subdir_path (dst filename : List Char) : List Char :=
  dst ++ '/' :: filename

/-! ### Event-trace model of `copy_file` (C7, C10) -/

/-- The fields of `struct stat` that `copy_file` can observe; the source
reads only `st_size`. -/
structure StatRec where
  st_size : Nat
  st_mode : Nat
deriving Repr, DecidableEq

/-- Observable filesystem events of a run of `copy_file`. -/
inductive Ev where
  | openEv : List Char → Nat → Nat → Ev   -- path, flags, creation mode
  | statEv : Ev
  | truncEv : Nat → Ev                    -- ftruncate length
  | readEv : Nat → Nat → Ev               -- pread offset, length
  | writeEv : Nat → Nat → Ev              -- pwrite offset, length
  | closeEv : Nat → Ev                    -- close fd
deriving Repr, DecidableEq

/-- `yo::open_file` (yo.cpp lines 125–132) issues
`open(filename, flags | O_CLOEXEC, 0755)`. -/
def open_file_ev (path : List Char) (flags : Nat) : Ev :=
  .openEv path (flags ||| O_CLOEXEC) 0o755

/-- The events of one `copy_chunk` invocation on the all-success path:
per step, a `pread` then a `pwrite` of `r_size` bytes at the same offset. -/
def copy_chunk_events (opts : options) (offset size : Nat) : List Ev :=
  if h : size = 0 ∨ opts.block_size = 0 then []
  else
    let r_size := min size opts.block_size
    .readEv offset r_size :: .writeEv offset r_size ::
      copy_chunk_events opts (offset + r_size) (size - r_size)
termination_by size
decreasing_by
  push_neg at h
  have h1 : 1 ≤ min size opts.block_size :=
    le_min (Nat.one_le_iff_ne_zero.mpr h.1) (Nat.one_le_iff_ne_zero.mpr h.2)
  omega

/-- The event trace of `copy_file` on the all-success path, in program
order (fd 0 = source, fd 1 = destination; worker events in dispatch
order).  The trace is a function of the full `fstat` result `st`, of which
the source reads only `st.st_size` (`const std::size_t size_file =
st.st_size`). -/
def copy_file_events (opts : options) (src_path dst_path : List Char)
    (st : StatRec) : List Ev :=
  open_file_ev src_path O_RDONLY ::
  open_file_ev dst_path (O_WRONLY ||| O_CREAT) ::
  Ev.statEv ::
  Ev.truncEv st.st_size ::
  (((partition st.st_size opts.threads).map
      (fun r => copy_chunk_events opts r.offset r.length)).flatten
    ++ [Ev.closeEv 0, Ev.closeEv 1])

/-! ### Error-path model of `copy_chunk` (C6, C9) -/

/-- Which positioned I/O call failed. -/
inductive IOOp where
  | readOp
  | writeOp
deriving Repr, DecidableEq

/-- The `std::system_error` raised from `copy_chunk`: failing operation
(`[pread]`/`[pwrite]`) and OS errno. -/
structure IOErr where
  op : IOOp
  errno : Nat
deriving Repr, DecidableEq

/-- One kernel I/O outcome: the call's return value, and the errno it sets
when the return value is negative. -/
structure KernelRet where
  ret : Int
  errno : Nat
deriving Repr, DecidableEq

/-- The `do { … } while(1)` retry loop around one `pread`/`pwrite`
(yo.cpp lines 152–161 and 164–173): each attempt re-issues the call with
the same operation, offset and length (same reused buffer); a negative
return with `errno ∈ {EINTR, EAGAIN}` `continue`s, a negative return with
any other errno throws, a non-negative return `break`s.  `env` supplies
the successive kernel outcomes; an exhausted env means the next attempt
succeeds (returning 0).  Results: the list of attempts made (operation,
offset, length) and either the error thrown or the consumed env. -/
def retry_loop (op : IOOp) (offset len : Nat) (env : List KernelRet) :
    List (IOOp × Nat × Nat) × Except IOErr (List KernelRet) :=
  match env with
  | [] => ([(op, offset, len)], .ok [])
  | k :: rest =>
    if k.ret < 0 then
      if k.errno = EINTR ∨ k.errno = EAGAIN then
        let next := retry_loop op offset len rest
        ((op, offset, len) :: next.1, next.2)
      else ([(op, offset, len)], .error ⟨op, k.errno⟩)
    else ([(op, offset, len)], .ok rest)

/-- The `copy_chunk` control loop with kernel outcomes supplied by `env`:
per step read then write `r_size = min size chunk_size` bytes at the
current offset, retrying via `retry_loop`; a non-negative return value is
never inspected (the code only tests `status < 0`), so the loop advances
by the full `r_size` regardless of the count returned.  Results: the
attempts made and either the thrown `IOErr` or the `(offset, r_size)`
steps taken together with the unconsumed env. -/
def copy_chunk_run (opts : options) (offset size : Nat) (env : List KernelRet) :
    List (IOOp × Nat × Nat) × Except IOErr (List (Nat × Nat) × List KernelRet) :=
  if h : size = 0 ∨ opts.block_size = 0 then ([], .ok ([], env))
  else
    let r_size := min size opts.block_size
    let read := retry_loop .readOp offset r_size env
    match read.2 with
    | .error e => (read.1, .error e)
    | .ok env1 =>
      let write := retry_loop .writeOp offset r_size env1
      match write.2 with
      | .error e => (read.1 ++ write.1, .error e)
      | .ok env2 =>
        let next := copy_chunk_run opts (offset + r_size) (size - r_size) env2
        (read.1 ++ write.1 ++ next.1,
         match next.2 with
         | .error e => .error e
         | .ok (steps, env3) => .ok ((offset, r_size) :: steps, env3))
termination_by size
decreasing_by
  push_neg at h
  have h1 : 1 ≤ min size opts.block_size :=
    le_min (Nat.one_le_iff_ne_zero.mpr h.1) (Nat.one_le_iff_ne_zero.mpr h.2)
  omega

/-! ### Resource/outcome model of `copy_file` (C3, C4, C5) -/

/-- Errors a `copy_file` run can propagate. -/
inductive CopyErr where
  | openErr : List Char → Nat → CopyErr    -- `[open] path`, errno
  | statErr : Nat → CopyErr                -- `[fstat]`, errno
  | truncErr : Nat → CopyErr               -- `[ftruncate]`, errno
  | ioErr : IOErr → CopyErr                -- from a worker task
deriving Repr, DecidableEq

/-- Environment fixing the outcome of each fallible step of one
`copy_file` run: `none` = the step succeeds, `some e` = it fails with
errno `e`.  `task_errs` gives each dispatched task's outcome. -/
structure RunEnv where
  src_err : Option Nat       -- open(src, O_RDONLY)
  dst_err : Option Nat       -- open(dst, O_WRONLY|O_CREAT), first try
  dst_sub_err : Option Nat   -- open(dst + '/' + filename, …), fallback try
  stat_err : Option Nat      -- fstat(fd_src)
  trunc_err : Option Nat     -- ftruncate(fd_dst, size)
  task_errs : List (Option IOErr)
deriving Repr, DecidableEq

/-- `yo::open_file` outcome under `env`: the opened path on success. -/
def open_file_r (path : List Char) (err : Option Nat) :
    Except CopyErr (List Char) :=
  match err with
  | some e => .error (.openErr path e)
  | none => .ok path

/-- `yo::open_file_or_in_subdir` (yo.cpp lines 189–198): try `dst`
directly; on failure rethrow unless the errno is `EISDIR`, in which case
open `dst + '/' + filename` instead.  Returns the path actually opened. -/
def open_file_or_in_subdir_r (dst filename : List Char)
    (err sub_err : Option Nat) : Except CopyErr (List Char) :=
  match open_file_r dst err with
  | .ok p => .ok p
  | .error (.openErr p e) =>
    if e = EISDIR then open_file_r (subdir_path dst filename) sub_err
    else .error (.openErr p e)
  | .error err' => .error err'

/-- The `for(auto & f : futures){ f.get(); }` join loop (yo.cpp lines
242–244): `get` the futures in dispatch order; the first `get` that
rethrows ends the loop.  Returns the propagated outcome and how many
futures were `get`-awaited. -/
def join_futures : List (Option IOErr) → Except CopyErr Unit × Nat
  | [] => (.ok (), 0)
  | none :: rest =>
    let next := join_futures rest
    (next.1, next.2 + 1)
  | some e :: _ => (.error (.ioErr e), 1)

/-- One `copy_file` run under `env` (yo.cpp lines 200–247), tracking
resources: result, destination path actually opened (when reached),
descriptors acquired and descriptors closed (fd 0 = source, fd 1 =
destination).  The `defer_exec` closing both descriptors is installed
only after BOTH opens succeeded; an exit before that closes nothing. -/
def copy_file_run (env : RunEnv) (src dst : List Char) :
    Except CopyErr Unit × Option (List Char) × List Nat × List Nat :=
  match open_file_r src env.src_err with
  | .error e => (.error e, none, [], [])
  | .ok _ =>
    match open_file_or_in_subdir_r dst (extract_filename src)
        env.dst_err env.dst_sub_err with
    | .error e => (.error e, none, [0], [])
    | .ok dst_path =>
      -- defer_exec installed here: fds 0 and 1 close on every later exit
      match env.stat_err with
      | some e => (.error (.statErr e), some dst_path, [0, 1], [0, 1])
      | none =>
        match env.trunc_err with
        | some e => (.error (.truncErr e), some dst_path, [0, 1], [0, 1])
        | none => ((join_futures env.task_errs).1, some dst_path, [0, 1], [0, 1])

/-- Both descriptor acquisitions of a run succeed. -/
def opens_ok (env : RunEnv) : Prop :=
  env.src_err = none ∧
    (env.dst_err = none ∨ (env.dst_err = some EISDIR ∧ env.dst_sub_err = none))

instance (env : RunEnv) : Decidable (opens_ok env) := by
  unfold opens_ok; infer_instance

/-! ### Partition lemmas (C2, C8) -/

theorem partition_length (t n : Nat) : (partition t n).length = n := by
  simp [partition]

theorem partition_get (t n i : Nat) (h : i < (partition t n).length) :
    (partition t n).get ⟨i, h⟩ =
      ⟨i * (t / n), if i + 1 = n then t - i * (t / n) else t / n⟩ := by
  simp only [partition, List.get_eq_getElem, List.getElem_map, List.getElem_range]
  have hexp : (i + 1) * (t / n) = i * (t / n) + t / n := by ring
  by_cases hc : i + 1 = n
  · rw [if_pos hc, if_pos hc]
  · rw [if_neg hc, if_neg hc, hexp, Nat.add_sub_cancel_left]

theorem partition_mem_iff (t n : Nat) (r : FileRange) :
    r ∈ partition t n ↔
      ∃ i, i < n ∧
        r = ⟨i * (t / n), if i + 1 = n then t - i * (t / n) else t / n⟩ := by
  constructor
  · intro hr
    obtain ⟨i, hv⟩ := List.mem_iff_get.mp hr
    refine ⟨i.1, ?_, ?_⟩
    · have := i.2; simpa [partition_length] using this
    · rw [← hv, partition_get]
  · rintro ⟨i, hi, rfl⟩
    have hlen : i < (partition t n).length := by simpa [partition_length]
    have := partition_get t n i hlen
    rw [← this]
    exact List.get_mem _ _ _

theorem partition_lengths_eq (t n : Nat) :
    (partition t n).map FileRange.length =
      (List.range n).map (fun i => if i + 1 = n then t - i * (t / n) else t / n) := by
  simp only [partition, List.map_map]
  apply List.map_congr_left
  intro i _
  simp only [Function.comp_apply]
  have hexp : (i + 1) * (t / n) = i * (t / n) + t / n := by ring
  by_cases hc : i + 1 = n
  · rw [if_pos hc, if_pos hc]
  · rw [if_neg hc, if_neg hc, hexp, Nat.add_sub_cancel_left]

theorem partition_sum_lengths (t n : Nat) (hn : 1 ≤ n) :
    ((partition t n).map FileRange.length).sum = t := by
  obtain ⟨m, rfl⟩ : ∃ m, n = m + 1 := ⟨n - 1, by omega⟩
  rw [partition_lengths_eq, List.range_succ, List.map_append, List.sum_append]
  have hmap : (List.range m).map
      (fun i => if i + 1 = m + 1 then t - i * (t / (m + 1)) else t / (m + 1)) =
      (List.range m).map (fun _ => t / (m + 1)) := by
    apply List.map_congr_left
    intro i hi
    have : i < m := List.mem_range.mp hi
    rw [if_neg (by omega)]
  rw [hmap]
  have hrepl : (List.range m).map (fun _ => t / (m + 1)) =
      List.replicate m (t / (m + 1)) := by
    simp [List.map_const]
  rw [hrepl, List.sum_replicate]
  simp only [List.map_cons, List.map_nil, List.sum_cons, List.sum_nil, if_pos rfl,
    smul_eq_mul, if_true]
  have hlast : m * (t / (m + 1)) ≤ t := by
    calc m * (t / (m + 1)) ≤ (m + 1) * (t / (m + 1)) := Nat.mul_le_mul_right _ (by omega)
      _ = t / (m + 1) * (m + 1) := Nat.mul_comm _ _
      _ ≤ t := Nat.div_mul_le_self t (m + 1)
  omega

theorem partition_last_bound (t n : Nat) (hn : 1 ≤ n) :
    (n - 1) * (t / n) ≤ t := by
  calc (n - 1) * (t / n) ≤ n * (t / n) := Nat.mul_le_mul_right _ (Nat.sub_le n 1)
    _ = t / n * n := Nat.mul_comm _ _
    _ ≤ t := Nat.div_mul_le_self t n

theorem partition_cover (t n : Nat) (hn : 1 ≤ n) (p : Nat) (hp : p < t) :
    ∃ r ∈ partition t n, r.mem p := by
  set wb := t / n with hwb
  rcases Nat.eq_zero_or_pos wb with hwb0 | hwbpos
  · -- worker_block = 0: the last range is [0, t)
    refine ⟨⟨(n - 1) * wb, t - (n - 1) * wb⟩, ?_, ?_⟩
    · exact (partition_mem_iff t n _).mpr ⟨n - 1, by omega, by rw [if_pos (by omega)]⟩
    · simp only [FileRange.mem, hwb0, Nat.mul_zero]
      omega
  · rcases Nat.lt_or_ge (p / wb) (n - 1) with hlt | hge
    · -- p lies in range number p / wb, which is not the last one
      refine ⟨⟨(p / wb) * wb, wb⟩, ?_, ?_⟩
      · refine (partition_mem_iff t n _).mpr ⟨p / wb, by omega, ?_⟩
        rw [if_neg (by omega)]
      · simp only [FileRange.mem]
        constructor
        · exact Nat.div_mul_le_self p wb
        · have hmod : p % wb < wb := Nat.mod_lt _ hwbpos
          have hdm : wb * (p / wb) + p % wb = p := Nat.div_add_mod p wb
          calc p = wb * (p / wb) + p % wb := hdm.symm
            _ < wb * (p / wb) + wb := by omega
            _ = p / wb * wb + wb := by ring
    · -- p lies in the last range
      refine ⟨⟨(n - 1) * wb, t - (n - 1) * wb⟩, ?_, ?_⟩
      · exact (partition_mem_iff t n _).mpr ⟨n - 1, by omega, by rw [if_pos (by omega)]⟩
      · simp only [FileRange.mem]
        have h1 : (n - 1) * wb ≤ (p / wb) * wb := Nat.mul_le_mul_right _ hge
        have h2 : (p / wb) * wb ≤ p := Nat.div_mul_le_self p wb
        omega

/-- C2: the partition computed in `copy_file` consists of exactly
`worker_count` ranges with `offset_i = i * (total_size / worker_count)`,
`length_i = total_size / worker_count` except for the last worker, whose
length is `total_size - offset_(n-1)`; the ranges are sorted by offset,
pairwise disjoint, contiguous, and their union is exactly
`[0, total_size)`, their lengths summing to `total_size`. -/
theorem partition_correct (t n : Nat) (hn : 1 ≤ n) :
    (partition t n).length = n
    ∧ (∀ i (h : i < (partition t n).length),
        ((partition t n).get ⟨i, h⟩).offset = i * (t / n)
        ∧ ((partition t n).get ⟨i, h⟩).length =
            (if i + 1 = n then t - i * (t / n) else t / n))
    ∧ (∀ i j (hi : i < (partition t n).length) (hj : j < (partition t n).length),
        i ≤ j →
        ((partition t n).get ⟨i, hi⟩).offset ≤ ((partition t n).get ⟨j, hj⟩).offset)
    ∧ (∀ i j (hi : i < (partition t n).length) (hj : j < (partition t n).length),
        i ≠ j → ∀ p, ¬(((partition t n).get ⟨i, hi⟩).mem p
                        ∧ ((partition t n).get ⟨j, hj⟩).mem p))
    ∧ (∀ i (hi : i < (partition t n).length) (hi1 : i + 1 < (partition t n).length),
        ((partition t n).get ⟨i + 1, hi1⟩).offset =
          ((partition t n).get ⟨i, hi⟩).offset + ((partition t n).get ⟨i, hi⟩).length)
    ∧ ((partition t n).map FileRange.length).sum = t
    ∧ (∀ p, (∃ r ∈ partition t n, r.mem p) ↔ p < t) := by
  set wb := t / n with hwb
  have hget : ∀ i (h : i < (partition t n).length),
      (partition t n).get ⟨i, h⟩ =
        ⟨i * wb, if i + 1 = n then t - i * wb else wb⟩ := fun i h => partition_get t n i h
  -- an upper bound for every range end
  have hend : ∀ i, i < n →
      i * wb + (if i + 1 = n then t - i * wb else wb) ≤ t := by
    intro i hi
    split
    · next hlast =>
      have : i * wb ≤ t := by
        have : i = n - 1 := by omega
        subst this; exact partition_last_bound t n hn
      omega
    · next hnl =>
      have hi1 : i + 1 ≤ n - 1 := by omega
      have hmul : (i + 1) * wb ≤ (n - 1) * wb := Nat.mul_le_mul_right _ hi1
      have hlast := partition_last_bound t n hn
      rw [← hwb] at hlast
      have hexp : (i + 1) * wb = i * wb + wb := by ring
      omega
  refine ⟨partition_length t n, ?_, ?_, ?_, ?_, partition_sum_lengths t n hn, ?_⟩
  · intro i h; rw [hget i h]; exact ⟨rfl, rfl⟩
  · intro i j hi hj hij
    rw [hget i hi, hget j hj]
    exact Nat.mul_le_mul_right _ hij
  · -- pairwise disjointness
    have key : ∀ i j (hi : i < (partition t n).length) (hj : j < (partition t n).length),
        i < j → ∀ p, ¬(((partition t n).get ⟨i, hi⟩).mem p
                        ∧ ((partition t n).get ⟨j, hj⟩).mem p) := by
      intro i j hi hj hij p ⟨hpi, hpj⟩
      have hjn : j < n := by simpa [partition_length] using hj
      rw [hget i hi] at hpi
      rw [hget j hj] at hpj
      simp only [FileRange.mem] at hpi hpj
      have hinl : ¬(i + 1 = n) := by omega
      rw [if_neg hinl] at hpi
      have h1 : (i + 1) * wb ≤ j * wb := Nat.mul_le_mul_right _ (by omega)
      have hexp : (i + 1) * wb = i * wb + wb := by ring
      omega
    intro i j hi hj hne p hp
    rcases Nat.lt_or_ge i j with h | h
    · exact key i j hi hj h p hp
    · have : j < i := by omega
      exact key j i hj hi this p ⟨hp.2, hp.1⟩
  · -- contiguity
    intro i hi hi1
    rw [hget i hi, hget (i + 1) hi1]
    have hn1 : ¬(i + 1 = n) := by
      have : i + 1 < n := by simpa [partition_length] using hi1
      omega
    rw [if_neg hn1]
    simp only
    ring
  · -- union is exactly [0, t)
    intro p
    constructor
    · rintro ⟨r, hr, hmem⟩
      obtain ⟨i, hi, rfl⟩ := (partition_mem_iff t n r).mp hr
      have := hend i hi
      simp only [FileRange.mem] at hmem
      rw [← hwb] at hmem
      omega
    · exact partition_cover t n hn p

/-! ### Chunked copy loop: data effect (C1) -/

theorem copy_chunk_zero (opts : options) (dst src : File) (offset : Nat) :
    copy_chunk opts dst src offset 0 = dst := by
  rw [copy_chunk]
  simp

theorem copy_chunk_data (opts : options) (hbs : 1 ≤ opts.block_size) :
    ∀ n o (dst src : File) p,
      (copy_chunk opts dst src o n).data p =
        if o ≤ p ∧ p < o + n then src.data p else dst.data p := by
  intro n
  induction n using Nat.strong_induction_on with
  | _ n ih =>
    intro o dst src p
    rw [copy_chunk]
    by_cases h0 : n = 0 ∨ opts.block_size = 0
    · rw [dif_pos h0]
      have hn : n = 0 := by omega
      subst hn
      rw [if_neg (by omega)]
    · rw [dif_neg h0]
      simp only
      have hr1 : 1 ≤ min n opts.block_size := le_min (by omega) hbs
      have hrn : min n opts.block_size ≤ n := Nat.min_le_left _ _
      rw [ih (n - min n opts.block_size) (by omega)]
      simp only [pwriteF]
      by_cases hin : o + min n opts.block_size ≤ p ∧ p < o + min n opts.block_size + (n - min n opts.block_size)
      · rw [if_pos hin, if_pos (by omega)]
      · rw [if_neg hin]
        by_cases hin2 : o ≤ p ∧ p < o + min n opts.block_size
        · rw [if_pos hin2, if_pos (by omega)]
          have : o + (p - o) = p := by omega
          rw [this]
        · rw [if_neg hin2, if_neg (by omega)]

theorem copy_chunk_size (opts : options) (hbs : 1 ≤ opts.block_size) :
    ∀ n o (dst src : File), o + n ≤ dst.size →
      (copy_chunk opts dst src o n).size = dst.size := by
  intro n
  induction n using Nat.strong_induction_on with
  | _ n ih =>
    intro o dst src hle
    rw [copy_chunk]
    by_cases h0 : n = 0 ∨ opts.block_size = 0
    · rw [dif_pos h0]
    · rw [dif_neg h0]
      simp only
      have hr1 : 1 ≤ min n opts.block_size := le_min (by omega) hbs
      have hrn : min n opts.block_size ≤ n := Nat.min_le_left _ _
      rw [ih (n - min n opts.block_size) (by omega)]
      · simp only [pwriteF]
        omega
      · simp only [pwriteF]
        simp only [Nat.max_eq_left (by omega : o + min n opts.block_size ≤ dst.size)]
        omega

theorem foldl_copy_chunk_data (opts : options) (hbs : 1 ≤ opts.block_size)
    (src : File) :
    ∀ (rs : List FileRange) (d0 : File) (p : Nat),
      ((rs.foldl (fun d r => copy_chunk opts d src r.offset r.length) d0).data p) =
        if ∃ r ∈ rs, r.mem p then src.data p else d0.data p := by
  intro rs
  induction rs with
  | nil => intro d0 p; simp
  | cons r rs ih =>
    intro d0 p
    rw [List.foldl_cons, ih]
    rw [copy_chunk_data opts hbs]
    by_cases hrs : ∃ r' ∈ rs, r'.mem p
    · have hcons : ∃ r' ∈ r :: rs, r'.mem p := by
        obtain ⟨r', h1, h2⟩ := hrs
        exact ⟨r', List.mem_cons_of_mem _ h1, h2⟩
      rw [if_pos hrs, if_pos hcons]
    · rw [if_neg hrs]
      by_cases hr : r.offset ≤ p ∧ p < r.offset + r.length
      · rw [if_pos hr, if_pos ⟨r, List.mem_cons_self _ _, hr⟩]
      · have hno : ¬ ∃ r' ∈ r :: rs, r'.mem p := by
          rintro ⟨r', hr', hmem⟩
          rcases List.mem_cons.mp hr' with rfl | h
          · exact hr hmem
          · exact hrs ⟨r', h, hmem⟩
        rw [if_neg hr, if_neg hno]

theorem foldl_copy_chunk_size (opts : options) (hbs : 1 ≤ opts.block_size)
    (src : File) :
    ∀ (rs : List FileRange) (d0 : File), (∀ r ∈ rs, r.offset + r.length ≤ d0.size) →
      (rs.foldl (fun d r => copy_chunk opts d src r.offset r.length) d0).size = d0.size := by
  intro rs
  induction rs with
  | nil => intro d0 _; simp
  | cons r rs ih =>
    intro d0 hb
    rw [List.foldl_cons]
    have hsz : (copy_chunk opts d0 src r.offset r.length).size = d0.size :=
      copy_chunk_size opts hbs r.length r.offset d0 src (hb r (by simp))
    rw [ih _ (by intro r' h'; rw [hsz]; exact hb r' (by simp [h']))]
    exact hsz

theorem partition_range_le (t n : Nat) (hn : 1 ≤ n) (r : FileRange)
    (hr : r ∈ partition t n) : r.offset + r.length ≤ t := by
  obtain ⟨i, hi, rfl⟩ := (partition_mem_iff t n r).mp hr
  simp only
  by_cases hc : i + 1 = n
  · rw [if_pos hc]
    have : i = n - 1 := by omega
    subst this
    have := partition_last_bound t n hn
    omega
  · rw [if_neg hc]
    have hi1 : i + 1 ≤ n - 1 := by omega
    have hmul : (i + 1) * (t / n) ≤ (n - 1) * (t / n) := Nat.mul_le_mul_right _ hi1
    have hlast := partition_last_bound t n hn
    have hexp : (i + 1) * (t / n) = i * (t / n) + t / n := by ring
    omega

theorem canonical_steps_le (opts : options) :
    ∀ n o, ∀ s ∈ canonical_steps opts o n, s.2 ≤ opts.block_size := by
  intro n
  induction n using Nat.strong_induction_on with
  | _ n ih =>
    intro o s hs
    rw [canonical_steps] at hs
    by_cases h0 : n = 0 ∨ opts.block_size = 0
    · rw [dif_pos h0] at hs
      exact absurd hs (List.not_mem_nil s)
    · rw [dif_neg h0] at hs
      simp only [List.mem_cons] at hs
      rcases hs with rfl | hs

      · exact Nat.min_le_right _ _
      · push_neg at h0
        have hr1 : 1 ≤ min n opts.block_size :=
          le_min (by omega) (by omega)
        exact ih (n - min n opts.block_size) (by omega) _ s hs

/-- C1: a successful `copy_file` leaves the destination byte-for-byte
identical to the source and of equal size; each copy task's `copy_chunk`
writes exactly its range (source bytes at the same offsets, other bytes
untouched), advancing in steps of at most `block_size`. -/
theorem copy_file_identical (opts : options) (src dst : File)
    (hw : 1 ≤ opts.threads) (hbs : 1 ≤ opts.block_size) :
    (copy_file opts src dst).size = src.size
    ∧ (∀ p, p < src.size → (copy_file opts src dst).data p = src.data p)
    ∧ (∀ (d : File) (r : FileRange) (p : Nat),
        (copy_chunk opts d src r.offset r.length).data p =
          if r.mem p then src.data p else d.data p)
    ∧ (∀ r ∈ partition src.size opts.threads,
        ∀ s ∈ canonical_steps opts r.offset r.length, s.2 ≤ opts.block_size) := by
  have hsize1 : (ftruncateF dst src.size).size = src.size := rfl
  refine ⟨?_, ?_, ?_, ?_⟩
  · show ((partition src.size opts.threads).foldl
        (fun d r => copy_chunk opts d src r.offset r.length)
        (ftruncateF dst src.size)).size = src.size
    have hb : ∀ r ∈ partition src.size opts.threads,
        r.offset + r.length ≤ (ftruncateF dst src.size).size := by
      intro r hr
      rw [hsize1]
      exact partition_range_le src.size opts.threads hw r hr
    rw [foldl_copy_chunk_size opts hbs src _ _ hb]
    exact hsize1
  · intro p hp
    show ((partition src.size opts.threads).foldl
        (fun d r => copy_chunk opts d src r.offset r.length)
        (ftruncateF dst src.size)).data p = src.data p
    rw [foldl_copy_chunk_data opts hbs src]
    rw [if_pos (partition_cover src.size opts.threads hw p hp)]
  · intro d r p
    exact copy_chunk_data opts hbs r.length r.offset d src p
  · intro r _ s hs
    exact canonical_steps_le opts r.length r.offset s hs

theorem copy_file_identical_witness :
    (1 ≤ 3 ∧ 1 ≤ 4) ∧
      (copy_file ⟨3, 4⟩ ⟨31, fun p => p % 251⟩ ⟨7, fun _ => 0⟩).size = 31 :=
  ⟨⟨by decide, by decide⟩,
   (copy_file_identical ⟨3, 4⟩ ⟨31, fun p => p % 251⟩ ⟨7, fun _ => 0⟩
      (by decide) (by decide)).1⟩

theorem partition_correct_witness :
    1 ≤ 4 ∧ (partition 13 4).length = 4
      ∧ ((partition 13 4).map FileRange.length).sum = 13 :=
  ⟨by decide, (partition_correct 13 4 (by decide)).1,
   (partition_correct 13 4 (by decide)).2.2.2.2.2.1⟩

/-! ### Zero-length ranges and empty copies (C8) -/

theorem copy_chunk_events_zero (opts : options) (o : Nat) :
    copy_chunk_events opts o 0 = [] := by
  rw [copy_chunk_events]
  simp

/-- C8: when `worker_count > total_size`, some produced ranges have length
0; running the chunked copy loop on a zero-length range modifies nothing
and performs no read or write; with `total_size = 0` the whole job does no
I/O at all. -/
theorem zero_ranges_no_io (t wc : Nat) (opts : options) (hwc : 1 ≤ wc)
    (hgt : t < wc) :
    (∃ r ∈ partition t wc, r.length = 0)
    ∧ (∀ (dst src : File) (o : Nat), copy_chunk opts dst src o 0 = dst)
    ∧ (∀ o, copy_chunk_events opts o 0 = [])
    ∧ ((partition 0 wc).map
        (fun r => copy_chunk_events opts r.offset r.length)).flatten = [] := by
  refine ⟨?_, fun dst src o => copy_chunk_zero opts dst src o,
    fun o => copy_chunk_events_zero opts o, ?_⟩
  · by_cases h1 : wc = 1
    · subst h1
      refine ⟨⟨0, t⟩, ?_, by simpa using by omega⟩
      have := (partition_mem_iff t 1 ⟨0, t⟩).mpr ⟨0, by omega, by simp⟩
      simpa using this
    · refine ⟨⟨0, t / wc⟩, ?_, ?_⟩
      · exact (partition_mem_iff t wc _).mpr
          ⟨0, by omega, by rw [if_neg (by omega)]; simp⟩
      · simpa using Nat.div_eq_of_lt hgt
  · rw [List.flatten_eq_nil_iff]
    intro l hl
    obtain ⟨r, hr, rfl⟩ := List.mem_map.mp hl
    obtain ⟨i, hi, rfl⟩ := (partition_mem_iff 0 wc r).mp hr
    simp only [Nat.zero_div, Nat.mul_zero, Nat.zero_sub]
    rw [ite_self]
    exact copy_chunk_events_zero opts _

theorem zero_ranges_no_io_witness :
    (1 ≤ 5 ∧ 3 < 5) ∧ ∃ r ∈ partition 3 5, r.length = 0 :=
  ⟨⟨by decide, by decide⟩, (zero_ranges_no_io 3 5 ⟨5, 4⟩ (by decide) (by decide)).1⟩

/-! ### Pre-sizing precedes all writes (C7) -/

/-- C7: in the `copy_file` trace the destination is truncated to the
source size before any write event: every write event is preceded by the
truncate event, whose effect sets the destination size to the source
size. -/
theorem presize_before_writes (opts : options) (sp dp : List Char)
    (st : StatRec) (j o l : Nat)
    (hwr : (copy_file_events opts sp dp st)[j]? = some (.writeEv o l)) :
    ∃ i, i < j
      ∧ (copy_file_events opts sp dp st)[i]? = some (.truncEv st.st_size)
      ∧ (∀ d : File, (ftruncateF d st.st_size).size = st.st_size) := by
  refine ⟨3, ?_, ?_, fun d => rfl⟩
  · by_contra hle
    push_neg at hle
    interval_cases j <;> simp [copy_file_events, open_file_ev] at hwr
  · simp [copy_file_events]

theorem presize_before_writes_witness :
    ∃ i, i < 5
      ∧ (copy_file_events ⟨1, 2⟩ ['s'] ['d'] ⟨3, 420⟩)[i]? = some (.truncEv 3)
      ∧ (∀ d : File, (ftruncateF d 3).size = 3) := by
  have h1 : partition 3 1 = [⟨0, 3⟩] := by simp [partition, List.range_succ]
  have h2 : copy_chunk_events ⟨1, 2⟩ 0 3 =
      [.readEv 0 2, .writeEv 0 2, .readEv 2 1, .writeEv 2 1] := by
    simp [copy_chunk_events, Nat.min_def]
  have hwr : (copy_file_events ⟨1, 2⟩ ['s'] ['d'] ⟨3, 420⟩)[5]? =
      some (.writeEv 0 2) := by
    rw [copy_file_events, h1]
    simp only [List.map_cons, List.map_nil]
    rw [h2]
    simp
  exact presize_before_writes ⟨1, 2⟩ ['s'] ['d'] ⟨3, 420⟩ 5 0 2 hwr

/-! ### Destination creation flags and mode (C10) -/

/-- C10: `copy_file` opens the destination with flags
`O_WRONLY | O_CREAT | O_CLOEXEC` and fixed creation mode `0755`; the trace
depends on the source's `fstat` result only through `st_size`, so the
source's permission bits (`st_mode`) are never consulted. -/
theorem dst_open_request (opts : options) (sp dp : List Char)
    (st st' : StatRec) (hsz : st.st_size = st'.st_size) :
    (copy_file_events opts sp dp st)[1]? =
      some (.openEv dp (O_WRONLY ||| O_CREAT ||| O_CLOEXEC) 0o755)
    ∧ copy_file_events opts sp dp st = copy_file_events opts sp dp st' := by
  constructor
  · simp [copy_file_events, open_file_ev]
  · simp [copy_file_events, hsz]

theorem dst_open_request_witness :
    (copy_file_events ⟨2, 8⟩ ['a'] ['b'] ⟨9, 0o644⟩)[1]? =
      some (.openEv ['b'] (O_WRONLY ||| O_CREAT ||| O_CLOEXEC) 0o755)
    ∧ copy_file_events ⟨2, 8⟩ ['a'] ['b'] ⟨9, 0o644⟩ =
        copy_file_events ⟨2, 8⟩ ['a'] ['b'] ⟨9, 0o777⟩ :=
  dst_open_request ⟨2, 8⟩ ['a'] ['b'] ⟨9, 0o644⟩ ⟨9, 0o777⟩ rfl

/-! ### Retry policy (C6) -/

/-- C6: the retry loop re-issues a failed positioned read or write with
the same operation, offset and length (same buffer) while the errno is
`EINTR` or `EAGAIN`; the first non-negative return ends the loop
successfully, and a failure with any other errno is not retried: it
raises an error identifying the failing operation and the OS errno, which
is fatal for the running `copy_chunk` task. -/
theorem retry_policy (op : IOOp) (o l : Nat) (pre rest : List KernelRet)
    (hpre : ∀ k ∈ pre, k.ret < 0 ∧ (k.errno = EINTR ∨ k.errno = EAGAIN)) :
    (∀ k : KernelRet, 0 ≤ k.ret →
      retry_loop op o l (pre ++ k :: rest) =
        (List.replicate (pre.length + 1) (op, o, l), .ok rest))
    ∧ (∀ k : KernelRet, k.ret < 0 → k.errno ≠ EINTR → k.errno ≠ EAGAIN →
      retry_loop op o l (pre ++ k :: rest) =
        (List.replicate (pre.length + 1) (op, o, l), .error ⟨op, k.errno⟩))
    ∧ (∀ (opts : options) (size : Nat) (k : KernelRet),
        1 ≤ opts.block_size → 1 ≤ size →
        k.ret < 0 → k.errno ≠ EINTR → k.errno ≠ EAGAIN →
        (copy_chunk_run opts o size (pre ++ k :: rest)).2 =
          .error ⟨IOOp.readOp, k.errno⟩) := by
  have main : ∀ (op' : IOOp) (o' l' : Nat) (pre' : List KernelRet),
      (∀ k ∈ pre', k.ret < 0 ∧ (k.errno = EINTR ∨ k.errno = EAGAIN)) →
      (∀ k : KernelRet, 0 ≤ k.ret →
        retry_loop op' o' l' (pre' ++ k :: rest) =
          (List.replicate (pre'.length + 1) (op', o', l'), .ok rest))
      ∧ (∀ k : KernelRet, k.ret < 0 → k.errno ≠ EINTR → k.errno ≠ EAGAIN →
        retry_loop op' o' l' (pre' ++ k :: rest) =
          (List.replicate (pre'.length + 1) (op', o', l'),
           .error ⟨op', k.errno⟩)) := by
    intro op' o' l' pre'
    induction pre' with
    | nil =>
      intro _
      constructor
      · intro k hk
        simp [retry_loop, not_lt.mpr hk]
      · intro k hneg h1 h2
        simp only [List.nil_append, retry_loop, if_pos hneg, List.length_nil]
        rw [if_neg (by tauto)]
        rfl
    | cons k0 pre' ih =>
      intro hpre'
      have hk0 := hpre' k0 (List.mem_cons_self _ _)
      have ihp := ih (fun k hk => hpre' k (List.mem_cons_of_mem _ hk))
      have step : ∀ tl, retry_loop op' o' l' ((k0 :: pre') ++ tl) =
          ((op', o', l') :: (retry_loop op' o' l' (pre' ++ tl)).1,
           (retry_loop op' o' l' (pre' ++ tl)).2) := by
        intro tl
        rw [List.cons_append]
        conv_lhs => rw [retry_loop]
        rw [if_pos hk0.1, if_pos hk0.2]
      constructor
      · intro k hk
        rw [step, ihp.1 k hk, List.length_cons, List.replicate_succ]
        rfl
      · intro k hneg h1 h2
        rw [step, ihp.2 k hneg h1 h2, List.length_cons, List.replicate_succ]
        rfl
  refine ⟨(main op o l pre hpre).1, (main op o l pre hpre).2, ?_⟩
  intro opts size k hbs hsz hneg h1 h2
  rw [copy_chunk_run, dif_neg (by omega)]
  have hread := (main .readOp o (min size opts.block_size) pre hpre).2 k hneg h1 h2
  simp only [hread]

theorem retry_policy_witness :
    (∀ k ∈ [(⟨-1, EINTR⟩ : KernelRet)],
      k.ret < 0 ∧ (k.errno = EINTR ∨ k.errno = EAGAIN)) ∧
    retry_loop .readOp 5 3 ([⟨-1, EINTR⟩] ++ ⟨-1, 9⟩ :: []) =
      (List.replicate 2 (IOOp.readOp, 5, 3), .error ⟨IOOp.readOp, 9⟩) :=
  ⟨by decide,
   (retry_policy .readOp 5 3 [⟨-1, EINTR⟩] [] (by decide)).2.1 ⟨-1, 9⟩
     (by decide) (by decide) (by decide)⟩

/-! ### Return counts of successful I/O are ignored (C9) -/

theorem retry_loop_ok (op : IOOp) (o l : Nat) :
    ∀ env : List KernelRet, (∀ k ∈ env, 0 ≤ k.ret) →
      ∃ env1, retry_loop op o l env = ([(op, o, l)], .ok env1)
        ∧ ∀ k ∈ env1, 0 ≤ k.ret := by
  intro env henv
  match env with
  | [] => exact ⟨[], rfl, by simp⟩
  | k :: rest =>
    have hk := henv k (List.mem_cons_self _ _)
    refine ⟨rest, ?_, fun k' hk' => henv k' (List.mem_cons_of_mem _ hk')⟩
    simp [retry_loop, not_lt.mpr hk]

/-- C9: `copy_chunk` never inspects the byte count returned by a
successful `pread`/`pwrite` (the code only tests `status < 0`): for every
environment of non-negative return values — including 0 and short
transfers — the loop succeeds and takes exactly the canonical steps,
advancing offset and remaining by the full `min remaining block_size` at
each step regardless of the returned counts. -/
theorem copy_chunk_ignores_counts (opts : options) (hbs : 1 ≤ opts.block_size) :
    ∀ size offset (env : List KernelRet), (∀ k ∈ env, 0 ≤ k.ret) →
      ∃ env2, (copy_chunk_run opts offset size env).2 =
        .ok (canonical_steps opts offset size, env2)
      ∧ ∀ k ∈ env2, 0 ≤ k.ret := by
  intro size
  induction size using Nat.strong_induction_on with
  | _ size ih =>
    intro offset env henv
    by_cases h0 : size = 0 ∨ opts.block_size = 0
    · rw [copy_chunk_run, dif_pos h0, canonical_steps, dif_pos h0]
      exact ⟨env, rfl, henv⟩
    · rw [copy_chunk_run, dif_neg h0, canonical_steps, dif_neg h0]
      obtain ⟨env1, hread, henv1⟩ :=
        retry_loop_ok .readOp offset (min size opts.block_size) env henv
      obtain ⟨env2, hwrite, henv2⟩ :=
        retry_loop_ok .writeOp offset (min size opts.block_size) env1 henv1
      have hr1 : 1 ≤ min size opts.block_size := le_min (by omega) hbs
      obtain ⟨env3, hnext, henv3⟩ :=
        ih (size - min size opts.block_size) (by omega)
          (offset + min size opts.block_size) env2 henv2
      refine ⟨env3, ?_, henv3⟩
      simp only [hread, hwrite]
      simp only [hnext]

theorem copy_chunk_ignores_counts_witness :
    (1 ≤ 2 ∧ ∀ k ∈ [(⟨0, 0⟩ : KernelRet), ⟨1, 0⟩], 0 ≤ k.ret) ∧
    ∃ env2, (copy_chunk_run ⟨1, 2⟩ 0 3 [⟨0, 0⟩, ⟨1, 0⟩]).2 =
        .ok (canonical_steps ⟨1, 2⟩ 0 3, env2)
      ∧ ∀ k ∈ env2, 0 ≤ k.ret :=
  ⟨⟨by decide, by decide⟩,
   copy_chunk_ignores_counts ⟨1, 2⟩ (by decide) 3 0 [⟨0, 0⟩, ⟨1, 0⟩] (by decide)⟩

/-! ### Descriptor release (C3) -/

/-- C3 counterexample: when the source open succeeds and the destination
open then fails with an errno other than `EISDIR`, `copy_file` propagates
the exception with the source descriptor acquired but never closed — the
`defer_exec` is installed only after both opens. -/
theorem fd_close_cex :
    (copy_file_run ⟨none, some EACCES, none, none, none, []⟩
        ['a'] ['b']).2.2.1 = [0]
    ∧ (copy_file_run ⟨none, some EACCES, none, none, none, []⟩
        ['a'] ['b']).2.2.2 = []
    ∧ (copy_file_run ⟨none, some EACCES, none, none, none, []⟩
        ['a'] ['b']).2.2.2 ≠
      (copy_file_run ⟨none, some EACCES, none, none, none, []⟩
        ['a'] ['b']).2.2.1 := by
  decide

/-- C3 amended: on every exit path reached after both descriptors were
acquired, both are closed exactly once before `copy_file` returns or
propagates; but when the source open succeeds and the destination open
then fails, the source descriptor is left unclosed, and when the source
open fails nothing was acquired. -/
theorem fd_close_amended (env : RunEnv) (src dst : List Char) :
    (opens_ok env →
      (copy_file_run env src dst).2.2.1 = [0, 1]
      ∧ (copy_file_run env src dst).2.2.2 = [0, 1])
    ∧ (env.src_err = none → ¬ opens_ok env →
      (copy_file_run env src dst).2.2.1 = [0]
      ∧ (copy_file_run env src dst).2.2.2 = [])
    ∧ (env.src_err ≠ none →
      (copy_file_run env src dst).2.2.1 = []
      ∧ (copy_file_run env src dst).2.2.2 = []) := by
  obtain ⟨se, de, dse, ste, te, tasks⟩ := env
  rcases se with _ | e0
  · rcases de with _ | e1
    · -- destination opens directly
      rcases ste with _ | e2 <;> rcases te with _ | e3 <;>
        simp [copy_file_run, open_file_r, open_file_or_in_subdir_r, opens_ok]
    · by_cases hd : e1 = EISDIR
      · subst hd
        rcases dse with _ | e4
        · rcases ste with _ | e2 <;> rcases te with _ | e3 <;>
            simp [copy_file_run, open_file_r, open_file_or_in_subdir_r, opens_ok]
        · simp [copy_file_run, open_file_r, open_file_or_in_subdir_r, opens_ok]
      · simp [copy_file_run, open_file_r, open_file_or_in_subdir_r, opens_ok, hd]
  · simp [copy_file_run, open_file_r, opens_ok]

theorem fd_close_amended_witness :
    opens_ok ⟨none, none, none, none, none, []⟩
    ∧ (copy_file_run ⟨none, none, none, none, none, []⟩
        ['a'] ['b']).2.2.1 = [0, 1]
    ∧ (copy_file_run ⟨none, none, none, none, none, []⟩
        ['a'] ['b']).2.2.2 = [0, 1] :=
  ⟨by decide,
   (fd_close_amended ⟨none, none, none, none, none, []⟩ ['a'] ['b']).1 (by decide)⟩

/-! ### Join/failure policy (C4) -/

/-- C4 counterexample: with two dispatched tasks where the first fails and
the second succeeds, the `f.get()` loop rethrows after awaiting only the
first future: the second dispatched task is not awaited and its result is
ignored, contradicting "waits for every other dispatched task". -/
theorem join_all_cex :
    (join_futures [some ⟨IOOp.readOp, 5⟩, none]).2 = 1
    ∧ [some (⟨IOOp.readOp, 5⟩ : IOErr), none].length = 2
    ∧ (join_futures [some ⟨IOOp.readOp, 5⟩, none]).2 ≠
        [some (⟨IOOp.readOp, 5⟩ : IOErr), none].length := by
  decide

/-- C4 amended: the job's reported failure is the failure of the
earliest-dispatched failing task; the join loop `get`s futures in dispatch
order and propagates at the first failing result, awaiting the failing
task and those dispatched before it but not the later ones, whose results
are discarded; with no failure all tasks are awaited, and `copy_file`
propagates the join outcome. -/
theorem join_first_failure (rs : List (Option IOErr)) :
    ((∀ o ∈ rs, o = none) → join_futures rs = (.ok (), rs.length))
    ∧ (∀ (pre : List (Option IOErr)) (e : IOErr) post,
        (∀ o ∈ pre, o = none) → rs = pre ++ some e :: post →
        join_futures rs = (.error (.ioErr e), pre.length + 1))
    ∧ (∀ (env : RunEnv) (src dst : List Char),
        opens_ok env → env.stat_err = none → env.trunc_err = none →
        (copy_file_run env src dst).1 = (join_futures env.task_errs).1) := by
  refine ⟨?_, ?_, ?_⟩
  · induction rs with
    | nil => intro _; rfl
    | cons o rest ih =>
      intro hall
      have ho := hall o (List.mem_cons_self _ _)
      subst ho
      have := ih (fun o' ho' => hall o' (List.mem_cons_of_mem _ ho'))
      simp [join_futures, this]
  · have key : ∀ (pre : List (Option IOErr)) (e : IOErr) post,
        (∀ o ∈ pre, o = none) →
        join_futures (pre ++ some e :: post) =
          (.error (.ioErr e), pre.length + 1) := by
      intro pre
      induction pre with
      | nil => intro e post _; rfl
      | cons o pre' ih =>
        intro e post hall
        have ho := hall o (List.mem_cons_self _ _)
        subst ho
        have := ih e post (fun o' ho' => hall o' (List.mem_cons_of_mem _ ho'))
        simp [join_futures, this]
    intro pre e post hall hrs
    subst hrs
    exact key pre e post hall
  · intro env src dst hopen hstat htrunc
    obtain ⟨se, de, dse, ste, te, tasks⟩ := env
    obtain ⟨hse, hde⟩ := hopen
    simp only at hse hstat htrunc
    subst hse
    subst hstat
    subst htrunc
    rcases hde with hde | ⟨hde, hdse⟩
    · subst hde
      simp [copy_file_run, open_file_r, open_file_or_in_subdir_r]
    · subst hde
      subst hdse
      simp [copy_file_run, open_file_r, open_file_or_in_subdir_r, EISDIR]

theorem join_first_failure_witness :
    (∀ o ∈ [(none : Option IOErr)], o = none) ∧
    join_futures [none, some ⟨IOOp.writeOp, 28⟩, none] =
      (.error (.ioErr ⟨IOOp.writeOp, 28⟩), 2) :=
  ⟨by decide,
   (join_first_failure [none, some ⟨IOOp.writeOp, 28⟩, none]).2.1
     [none] ⟨IOOp.writeOp, 28⟩ [none] (by decide) rfl⟩

/-! ### Destination path resolution (C5) -/

theorem rfind_slash_none_iff (s : List Char) :
    rfind_slash s = none ↔ '/' ∉ s := by
  induction s with
  | nil => simp [rfind_slash]
  | cons c rest ih =>
    simp only [rfind_slash]
    rcases h : rfind_slash rest with _ | p
    · simp only [h] at ih
      by_cases hc : c = '/'
      · simp [hc]
      · simp [hc, ih, List.mem_cons]
        tauto
    · simp only
      constructor
      · intro hcontra; cases hcontra
      · intro hnot
        have : '/' ∈ rest := by
          by_contra hno
          rw [← ih] at hno
          rw [h] at hno
          cases hno
        exact absurd (List.mem_cons_of_mem _ this) hnot

theorem rfind_slash_some_spec (s : List Char) (p : Nat)
    (h : rfind_slash s = some p) :
    p < s.length ∧ (s.drop p).head? = some '/' ∧ '/' ∉ (s.drop p).tail := by
  induction s generalizing p with
  | nil => simp [rfind_slash] at h
  | cons c rest ih =>
    simp only [rfind_slash] at h
    rcases hr : rfind_slash rest with _ | q
    · rw [hr] at h
      by_cases hc : c = '/'
      · rw [if_pos hc] at h
        cases h
        subst hc
        refine ⟨by simp, by simp, ?_⟩
        simpa using (rfind_slash_none_iff rest).mp hr
      · rw [if_neg hc] at h
        cases h
    · rw [hr] at h
      cases h
      obtain ⟨h1, h2, h3⟩ := ih q hr
      exact ⟨by simpa using h1, by simpa using h2, by simpa using h3⟩

/-- C5 counterexample: `extract_filename` returns the suffix of `src`
starting AT the last `'/'` (the slash is part of `substr(pos)`), so
copying `src = "/a/b/c.txt"` into directory `dst = "/tmp"` opens the
path `"/tmp//c.txt"`, not `"/tmp/c.txt"`. -/
theorem basename_cex :
    extract_filename ("/a/b/c.txt".toList) = "/c.txt".toList
    ∧ subdir_path ("/tmp".toList) (extract_filename ("/a/b/c.txt".toList)) =
        "/tmp//c.txt".toList
    ∧ subdir_path ("/tmp".toList) (extract_filename ("/a/b/c.txt".toList)) ≠
        "/tmp/c.txt".toList
    ∧ open_file_or_in_subdir_r ("/tmp".toList)
        (extract_filename ("/a/b/c.txt".toList)) (some EISDIR) none =
      .ok ("/tmp//c.txt".toList) :=
  ⟨by decide, by decide, by decide, by rfl⟩

/-- C5 amended: when opening `dst` fails with `EISDIR`, `copy_file` opens
exactly `dst ++ "/" ++ f` where `f` is the suffix of `src` from its LAST
`'/'` inclusive (so the result contains a double slash; POSIX resolves it
to the same file as `dst + "/" + basename(src)`), or `dst ++ "/" ++ src`
when `src` has no `'/'`; when `dst` opens directly it is used as-is, and
any non-`EISDIR` open failure propagates unchanged. -/
theorem dst_resolution_amended (dst src : List Char) :
    (('/' ∈ src) → (extract_filename src).head? = some '/'
      ∧ '/' ∉ (extract_filename src).tail
      ∧ (∃ pre, pre ++ extract_filename src = src)
      ∧ subdir_path dst (extract_filename src) =
          dst ++ '/' :: extract_filename src)
    ∧ (('/' ∉ src) → extract_filename src = src
      ∧ subdir_path dst (extract_filename src) = dst ++ '/' :: src)
    ∧ (∀ sub_err : Option Nat,
        open_file_or_in_subdir_r dst (extract_filename src) none sub_err =
          .ok dst)
    ∧ (open_file_or_in_subdir_r dst (extract_filename src)
          (some EISDIR) none =
        .ok (subdir_path dst (extract_filename src)))
    ∧ (∀ e, e ≠ EISDIR →
        open_file_or_in_subdir_r dst (extract_filename src) (some e) none =
          .error (.openErr dst e)) := by
  refine ⟨?_, ?_, ?_, ?_, ?_⟩
  · intro hmem
    rcases hp : rfind_slash src with _ | p
    · exact absurd ((rfind_slash_none_iff src).mp hp) (by simpa using hmem)
    · obtain ⟨h1, h2, h3⟩ := rfind_slash_some_spec src p hp
      have hex : extract_filename src = src.drop p := by
        rw [extract_filename, hp]
      rw [hex]
      exact ⟨h2, h3, ⟨src.take p, List.take_append_drop p src⟩, rfl⟩
  · intro hmem
    have hnone : rfind_slash src = none := (rfind_slash_none_iff src).mpr hmem
    have hex : extract_filename src = src := by
      rw [extract_filename, hnone]
    rw [hex]
    exact ⟨rfl, rfl⟩
  · intro sub_err
    rfl
  · simp [open_file_or_in_subdir_r, open_file_r, subdir_path]
  · intro e he
    simp [open_file_or_in_subdir_r, open_file_r, he]

theorem dst_resolution_amended_witness :
    ('/' ∈ "/a/b/c.txt".toList) ∧
    ((extract_filename ("/a/b/c.txt".toList)).head? = some '/'
      ∧ '/' ∉ (extract_filename ("/a/b/c.txt".toList)).tail
      ∧ (∃ pre, pre ++ extract_filename ("/a/b/c.txt".toList) =
          "/a/b/c.txt".toList)
      ∧ subdir_path ("/tmp".toList) (extract_filename ("/a/b/c.txt".toList)) =
          "/tmp".toList ++ '/' :: extract_filename ("/a/b/c.txt".toList)) :=
  ⟨by decide,
   (dst_resolution_amended ("/tmp".toList) ("/a/b/c.txt".toList)).1 (by decide)⟩

end Yo
